import Mathlib

/-!
# Verification of the h1 shader packager core

A shallow embedding of the shader-archive codec and its TEA-based block
cipher, together with proofs of the documented properties.

Byte buffers are modelled as `List Nat` (each element intended `< 256`);
32-bit machine arithmetic is modelled over `Nat` with explicit reduction
modulo `2 ^ 32`.
-/

set_option maxRecDepth 10000

namespace shader_packager

/-- The modulus of 32-bit unsigned arithmetic. -/
def M32 : Nat := 4294967296

/-- 32-bit wrapping addition. -/
def add32 (a b : Nat) : Nat := (a + b) % M32

/-- 32-bit wrapping subtraction. -/
def sub32 (a b : Nat) : Nat := (a + M32 - b % M32) % M32

/-- `v << 4` on a 32-bit word (the argument is kept `< M32` by all callers). -/
def shl4 (v : Nat) : Nat := v * 16 % M32

/-- `v >> 5` on a 32-bit word. -/
def shr5 (v : Nat) : Nat := v / 32

/-- The TEA key schedule: four 32-bit key words (`tea` struct in `crypt.hpp`;
the `endian` member is fixed to little-endian by `h1_tea` and is realised here
by the little-endian byte packing used throughout). -/
structure tea where
  key0 : Nat
  key1 : Nat
  key2 : Nat
  key3 : Nat

/-- The fixed key Halo 1 uses for its shader archives (`crypt.hpp`). -/
def h1_tea : tea := ⟨0x3FFFFFDD, 0x7FC3, 0xE5, 0x3FFFEF⟩

/-- The TEA additive constant. -/
def delta : Nat := 0x9E3779B9

/-- The quantity added to `v0` in an encryption round:
`((v1 << 4) + k0) ^ (v1 + sum) ^ ((v1 >> 5) + k1)`. -/
def encF (t : tea) (sum v : Nat) : Nat :=
  Nat.xor (Nat.xor (add32 (shl4 v) t.key0) (add32 v sum)) (add32 (shr5 v) t.key1)

/-- The quantity added to `v1` in an encryption round:
`((v0 << 4) + k2) ^ (v0 + sum) ^ ((v0 >> 5) + k3)`. -/
def encG (t : tea) (sum v : Nat) : Nat :=
  Nat.xor (Nat.xor (add32 (shl4 v) t.key2) (add32 v sum)) (add32 (shr5 v) t.key3)

/-- One round of the loop body of `tea::encrypt_chunk` (`crypt.cpp`). -/
def encRound (t : tea) (sum : Nat) (p : Nat × Nat) : Nat × Nat :=
  let v0 := add32 p.1 (encF t sum p.2)
  let v1 := add32 p.2 (encG t sum v0)
  (v0, v1)

/-- One round of the loop body of `tea::decrypt_chunk` (`crypt.cpp`). -/
def decRound (t : tea) (sum : Nat) (p : Nat × Nat) : Nat × Nat :=
  let v1 := sub32 p.2 (encG t sum p.1)
  let v0 := sub32 p.1 (encF t sum v1)
  (v0, v1)

/-- The encryption round loop: `sum += delta` then mix, `n` times. -/
def encRounds (t : tea) : Nat → Nat → Nat × Nat → Nat × Nat
  | 0, _, p => p
  | n + 1, sum, p =>
    let s := add32 sum delta
    encRounds t n s (encRound t s p)

/-- The decryption round loop: mix with the current `sum` then `sum -= delta`,
`n` times. -/
def decRounds (t : tea) : Nat → Nat → Nat × Nat → Nat × Nat
  | 0, _, p => p
  | n + 1, sum, p => decRounds t n (sub32 sum delta) (decRound t sum p)

/-- `tea::encrypt_chunk` on the two 32-bit words of a block: 32 rounds from
`sum = 0`. -/
def encrypt_chunk (t : tea) (p : Nat × Nat) : Nat × Nat := encRounds t 32 0 p

/-- `tea::decrypt_chunk` on the two 32-bit words of a block: 32 rounds from
`sum = 0xC6EF3720`. -/
def decrypt_chunk (t : tea) (p : Nat × Nat) : Nat × Nat :=
  decRounds t 32 0xC6EF3720 p

lemma add32_lt (a b : Nat) : add32 a b < M32 := by
  simp only [add32, M32]
  omega

lemma sub32_lt (a b : Nat) : sub32 a b < M32 := by
  simp only [sub32, M32]
  omega

lemma sub32_add32 (a b : Nat) (h : a < M32) : sub32 (add32 a b) b = a := by
  simp only [add32, sub32, M32] at *
  omega

lemma add32_mod_right (a b : Nat) : add32 a (b % M32) = add32 a b := by
  simp only [add32, M32]
  omega

lemma sub32_mod_left (a b : Nat) : sub32 (a % M32) b = sub32 a b := by
  simp only [sub32, M32]
  omega

lemma encF_mod (t : tea) (s v : Nat) : encF t (s % M32) v = encF t s v := by
  simp only [encF, add32_mod_right]

lemma encG_mod (t : tea) (s v : Nat) : encG t (s % M32) v = encG t s v := by
  simp only [encG, add32_mod_right]

lemma encRound_mod (t : tea) (s : Nat) (p : Nat × Nat) :
    encRound t (s % M32) p = encRound t s p := by
  simp only [encRound, encF_mod, encG_mod]

lemma decRound_mod (t : tea) (s : Nat) (p : Nat × Nat) :
    decRound t (s % M32) p = decRound t s p := by
  simp only [decRound, encF_mod, encG_mod]

lemma decRound_encRound (t : tea) (s : Nat) (p : Nat × Nat)
    (h0 : p.1 < M32) (h1 : p.2 < M32) :
    decRound t s (encRound t s p) = p := by
  obtain ⟨v0, v1⟩ := p
  simp only [encRound, decRound, sub32_add32 _ _ h1]
  simp only [sub32_add32 _ _ h0]

lemma encRound_lt (t : tea) (s : Nat) (p : Nat × Nat) :
    (encRound t s p).1 < M32 ∧ (encRound t s p).2 < M32 := by
  exact ⟨add32_lt _ _, add32_lt _ _⟩

lemma encRounds_lt (t : tea) (n s : Nat) (p : Nat × Nat)
    (h0 : p.1 < M32) (h1 : p.2 < M32) :
    (encRounds t n s p).1 < M32 ∧ (encRounds t n s p).2 < M32 := by
  induction n generalizing s p with
  | zero => exact ⟨h0, h1⟩
  | succ n ih =>
    exact ih _ _ (encRound_lt t _ p).1 (encRound_lt t _ p).2

lemma encRounds_zero (t : tea) (s : Nat) (p : Nat × Nat) :
    encRounds t 0 s p = p := rfl

lemma encRounds_succ (t : tea) (n s : Nat) (p : Nat × Nat) :
    encRounds t (n + 1) s p
      = encRounds t n (add32 s delta) (encRound t (add32 s delta) p) := rfl

lemma decRounds_succ (t : tea) (n s : Nat) (p : Nat × Nat) :
    decRounds t (n + 1) s p
      = decRounds t n (sub32 s delta) (decRound t s p) := rfl

lemma encRounds_eq_last (t : tea) :
    ∀ (n : Nat) (s : Nat) (p : Nat × Nat),
      encRounds t (n + 1) s p
        = encRound t (s + (n + 1) * delta) (encRounds t n s p) := by
  intro n
  induction n with
  | zero =>
    intro s p
    have h : add32 s delta = (s + 1 * delta) % M32 := by
      rw [one_mul]
      rfl
    rw [encRounds_succ, encRounds_zero, encRounds_zero,
      ← encRound_mod t (s + 1 * delta), ← h]
  | succ n ih =>
    intro s p
    have h : (add32 s delta + (n + 1) * delta) % M32
        = (s + (n + 1 + 1) * delta) % M32 := by
      simp only [add32, M32, delta]
      omega
    rw [encRounds_succ t (n + 1) s p,
      ih (add32 s delta) (encRound t (add32 s delta) p),
      ← encRounds_succ t n s p,
      ← encRound_mod t (add32 s delta + (n + 1) * delta),
      ← encRound_mod t (s + (n + 1 + 1) * delta), h]

lemma decRounds_mod (t : tea) (n : Nat) (s : Nat) (p : Nat × Nat) :
    decRounds t n (s % M32) p = decRounds t n s p := by
  cases n with
  | zero => rfl
  | succ n => rw [decRounds_succ, decRounds_succ, sub32_mod_left, decRound_mod]

lemma decRounds_encRounds (t : tea) :
    ∀ (n : Nat) (s : Nat) (p : Nat × Nat), p.1 < M32 → p.2 < M32 →
      decRounds t n (s + n * delta) (encRounds t n s p) = p := by
  intro n
  induction n with
  | zero => intro s p _ _; rfl
  | succ n ih =>
    intro s p h0 h1
    rw [encRounds_eq_last, decRounds_succ,
      decRound_encRound t _ _ (encRounds_lt t n s p h0 h1).1
        (encRounds_lt t n s p h0 h1).2]
    have hs : sub32 (s + (n + 1) * delta) delta = (s + n * delta) % M32 := by
      simp only [sub32, M32, delta]
      omega
    rw [hs, decRounds_mod]
    exact ih s p h0 h1

lemma decrypt_chunk_encrypt_chunk (t : tea) (p : Nat × Nat)
    (h0 : p.1 < M32) (h1 : p.2 < M32) :
    decrypt_chunk t (encrypt_chunk t p) = p := by
  have h := decRounds_encRounds t 32 0 p h0 h1
  have hs : (0 + 32 * delta) % M32 = 0xC6EF3720 := by decide
  rw [← decRounds_mod, hs] at h
  exact h

lemma encrypt_chunk_lt (t : tea) (p : Nat × Nat)
    (h0 : p.1 < M32) (h1 : p.2 < M32) :
    (encrypt_chunk t p).1 < M32 ∧ (encrypt_chunk t p).2 < M32 :=
  encRounds_lt t 32 0 p h0 h1

/-- Modelled from the spec: `deserialize` from the repository's `io.hpp`
(absent from the sources) reads a 32-bit unsigned integer from four bytes in
little-endian order ("a 4-byte little-endian unsigned length field",
"two 32-bit words per block, little-endian"). -/
def deserialize32 : List Nat → Nat
  | b0 :: b1 :: b2 :: b3 :: _ => b0 + 256 * b1 + 65536 * b2 + 16777216 * b3
  | _ => 0

/-- Modelled from the spec: `serialize` from the repository's `io.hpp`
(absent from the sources) writes a 32-bit unsigned integer as four bytes in
little-endian order. -/
def serialize32 (n : Nat) : List Nat :=
  [n % 256, n / 256 % 256, n / 65536 % 256, n / 16777216 % 256]

lemma deserialize32_serialize32 (n : Nat) (tail : List Nat) (h : n < M32) :
    deserialize32 (serialize32 n ++ tail) = n := by
  simp only [serialize32, deserialize32, List.cons_append, List.nil_append,
    M32] at *
  omega

lemma serialize32_length (n : Nat) : (serialize32 n).length = 4 := rfl

lemma serialize32_lt (n : Nat) : ∀ b ∈ serialize32 n, b < 256 := by
  intro b hb
  simp only [serialize32, List.mem_cons, List.not_mem_nil, or_false] at hb
  rcases hb with h | h | h | h <;> subst h <;> omega

lemma serialize32_deserialize32 (l : List Nat) (h4 : l.length = 4)
    (hb : ∀ b ∈ l, b < 256) :
    serialize32 (deserialize32 l) = l := by
  match l, h4 with
  | [b0, b1, b2, b3], _ =>
    simp only [List.mem_cons, List.not_mem_nil, or_false, forall_eq_or_imp,
      forall_eq] at hb
    simp only [serialize32, deserialize32, List.cons.injEq, and_true]
    refine ⟨?_, ?_, ?_, ?_⟩ <;> omega

lemma deserialize32_lt (l : List Nat) (hb : ∀ b ∈ l, b < 256) :
    deserialize32 l < M32 := by
  match l with
  | [] => simp [deserialize32, M32]
  | [b0] => simp [deserialize32, M32]
  | [b0, b1] => simp [deserialize32, M32]
  | [b0, b1, b2] => simp [deserialize32, M32]
  | b0 :: b1 :: b2 :: b3 :: rest =>
    simp only [List.mem_cons] at hb
    have h0 := hb b0 (by tauto)
    have h1 := hb b1 (by tauto)
    have h2 := hb b2 (by tauto)
    have h3 := hb b3 (by tauto)
    simp only [deserialize32, M32]
    omega

/-- `tea::encrypt_chunk` acting on one 8-byte block: deserialize the two
little-endian words, run the rounds, serialize back.  A list that is not an
8-byte block is returned unchanged (the buffer routines only ever apply this
to exact blocks). -/
def encrypt_chunk_bytes (t : tea) : List Nat → List Nat
  | [b0, b1, b2, b3, b4, b5, b6, b7] =>
    let p := encrypt_chunk t
      (deserialize32 [b0, b1, b2, b3], deserialize32 [b4, b5, b6, b7])
    serialize32 p.1 ++ serialize32 p.2
  | l => l

/-- `tea::decrypt_chunk` acting on one 8-byte block. -/
def decrypt_chunk_bytes (t : tea) : List Nat → List Nat
  | [b0, b1, b2, b3, b4, b5, b6, b7] =>
    let p := decrypt_chunk t
      (deserialize32 [b0, b1, b2, b3], deserialize32 [b4, b5, b6, b7])
    serialize32 p.1 ++ serialize32 p.2
  | l => l

lemma encrypt_chunk_bytes_length (t : tea) (l : List Nat) (h : l.length = 8) :
    (encrypt_chunk_bytes t l).length = 8 := by
  match l, h with
  | [b0, b1, b2, b3, b4, b5, b6, b7], _ => rfl

lemma decrypt_chunk_bytes_length (t : tea) (l : List Nat) (h : l.length = 8) :
    (decrypt_chunk_bytes t l).length = 8 := by
  match l, h with
  | [b0, b1, b2, b3, b4, b5, b6, b7], _ => rfl

lemma encrypt_chunk_bytes_lt (t : tea) (l : List Nat) (h : l.length = 8) :
    ∀ b ∈ encrypt_chunk_bytes t l, b < 256 := by
  match l, h with
  | [b0, b1, b2, b3, b4, b5, b6, b7], _ =>
    intro b hb
    simp only [encrypt_chunk_bytes, List.mem_append] at hb
    rcases hb with h | h
    · exact serialize32_lt _ b h
    · exact serialize32_lt _ b h

lemma decrypt_chunk_bytes_lt (t : tea) (l : List Nat) (h : l.length = 8) :
    ∀ b ∈ decrypt_chunk_bytes t l, b < 256 := by
  match l, h with
  | [b0, b1, b2, b3, b4, b5, b6, b7], _ =>
    intro b hb
    simp only [decrypt_chunk_bytes, List.mem_append] at hb
    rcases hb with h | h
    · exact serialize32_lt _ b h
    · exact serialize32_lt _ b h

lemma serialize32_append_eq (w0 w1 : Nat) :
    serialize32 w0 ++ serialize32 w1
      = [w0 % 256, w0 / 256 % 256, w0 / 65536 % 256, w0 / 16777216 % 256,
         w1 % 256, w1 / 256 % 256, w1 / 65536 % 256, w1 / 16777216 % 256] :=
  rfl

lemma decrypt_chunk_bytes_serialize (t : tea) (w0 w1 : Nat)
    (h0 : w0 < M32) (h1 : w1 < M32) :
    decrypt_chunk_bytes t (serialize32 w0 ++ serialize32 w1)
      = serialize32 (decrypt_chunk t (w0, w1)).1
        ++ serialize32 (decrypt_chunk t (w0, w1)).2 := by
  rw [serialize32_append_eq]
  simp only [decrypt_chunk_bytes]
  have e0 : deserialize32
      [w0 % 256, w0 / 256 % 256, w0 / 65536 % 256, w0 / 16777216 % 256]
      = w0 := by
    simp only [deserialize32, M32] at *
    omega
  have e1 : deserialize32
      [w1 % 256, w1 / 256 % 256, w1 / 65536 % 256, w1 / 16777216 % 256]
      = w1 := by
    simp only [deserialize32, M32] at *
    omega
  rw [e0, e1]

lemma decrypt_chunk_bytes_encrypt_chunk_bytes (t : tea) (l : List Nat)
    (h : l.length = 8) (hb : ∀ b ∈ l, b < 256) :
    decrypt_chunk_bytes t (encrypt_chunk_bytes t l) = l := by
  match l, h with
  | [b0, b1, b2, b3, b4, b5, b6, b7], _ =>
    have h0 : b0 < 256 := hb b0 (by simp)
    have h1 : b1 < 256 := hb b1 (by simp)
    have h2 : b2 < 256 := hb b2 (by simp)
    have h3 : b3 < 256 := hb b3 (by simp)
    have h4 : b4 < 256 := hb b4 (by simp)
    have h5 : b5 < 256 := hb b5 (by simp)
    have h6 : b6 < 256 := hb b6 (by simp)
    have h7 : b7 < 256 := hb b7 (by simp)
    have hv0 : deserialize32 [b0, b1, b2, b3] < M32 := by
      simp only [deserialize32, M32]
      omega
    have hv1 : deserialize32 [b4, b5, b6, b7] < M32 := by
      simp only [deserialize32, M32]
      omega
    have hlt := encrypt_chunk_lt t
      (deserialize32 [b0, b1, b2, b3], deserialize32 [b4, b5, b6, b7]) hv0 hv1
    simp only [encrypt_chunk_bytes]
    rw [decrypt_chunk_bytes_serialize t _ _ hlt.1 hlt.2]
    simp only [Prod.mk.eta]
    rw [decrypt_chunk_encrypt_chunk t _ hv0 hv1]
    rw [serialize32_deserialize32 [b0, b1, b2, b3] rfl (by
      intro b hbm
      simp only [List.mem_cons, List.not_mem_nil, or_false] at hbm
      rcases hbm with hh | hh | hh | hh <;> subst hh <;> omega)]
    rw [serialize32_deserialize32 [b4, b5, b6, b7] rfl (by
      intro b hbm
      simp only [List.mem_cons, List.not_mem_nil, or_false] at hbm
      rcases hbm with hh | hh | hh | hh <;> subst hh <;> omega)]
    rfl

/-- The 8 bytes starting at `pos`: `(l.drop pos).take n` models a pointer
`l + pos` with `n` bytes read. -/
def readBytes (l : List Nat) (pos n : Nat) : List Nat := (l.drop pos).take n

/-- In-place overwrite of the bytes at `[pos, pos + xs.length)` with `xs`. -/
def writeBytes (l : List Nat) (pos : Nat) (xs : List Nat) : List Nat :=
  l.take pos ++ xs ++ l.drop (pos + xs.length)

/-- Apply a block transform in place to the 8 bytes at `pos`
(`scheme.encrypt_chunk(chunk)` on a pointer into the buffer). -/
def opChunkAt (f : List Nat → List Nat) (l : List Nat) (pos : Nat) :
    List Nat :=
  writeBytes l pos (f (readBytes l pos 8))

/-- The chunk loop of `encrypt_buffer`/`decrypt_buffer`: apply the block
transform at `pos, pos + 8, ...` for `n` chunks. -/
def opLoop (f : List Nat → List Nat) : Nat → Nat → List Nat → List Nat
  | 0, _, l => l
  | n + 1, pos, l => opLoop f n (pos + 8) (opChunkAt f l pos)

/-- `encrypt_buffer` (`crypt.hpp` lines 75-98): do nothing on fewer than 8
bytes; otherwise encrypt the `len / 8` complete chunks front-to-back, and if
`len % 8 != 0` additionally re-encrypt the final 8 bytes of the buffer. -/
def encrypt_buffer (t : tea) (buf : List Nat) : List Nat :=
  if buf.length < 8 then buf
  else
    let l2 := opLoop (encrypt_chunk_bytes t) (buf.length / 8) 0 buf
    if buf.length % 8 ≠ 0 then
      opChunkAt (encrypt_chunk_bytes t) l2 (buf.length - 8)
    else l2

/-- `decrypt_buffer` (`crypt.hpp` lines 108-132): do nothing on fewer than 8
bytes; otherwise if `len % 8 != 0` first decrypt the final 8 bytes of the
buffer, then decrypt the complete chunks front-to-back over the buffer
truncated to `len - len % 8` bytes (`(len - len % 8) / 8 = len / 8` chunks). -/
def decrypt_buffer (t : tea) (buf : List Nat) : List Nat :=
  if buf.length < 8 then buf
  else
    let l2 :=
      if buf.length % 8 ≠ 0 then
        opChunkAt (decrypt_chunk_bytes t) buf (buf.length - 8)
      else buf
    opLoop (decrypt_chunk_bytes t) (buf.length / 8) 0 l2

/-- Spec-side description: transform each complete 8-byte block front-to-back,
leaving any remainder (fewer than 8 trailing bytes) untouched. -/
def mapBlocks (f : List Nat → List Nat) : List Nat → List Nat
  | b0 :: b1 :: b2 :: b3 :: b4 :: b5 :: b6 :: b7 :: rest =>
    f [b0, b1, b2, b3, b4, b5, b6, b7] ++ mapBlocks f rest
  | l => l

/-- Spec-side description: transform the final full block that ends at the
buffer's end. -/
def onFinalBlock (f : List Nat → List Nat) (l : List Nat) : List Nat :=
  l.take (l.length - 8) ++ f (l.drop (l.length - 8))

/-- The whole-buffer encrypt policy in the spec's words: no-op under 8 bytes;
encrypt all complete blocks from the front; iff a remainder exists,
additionally re-encrypt the final full block ending at the buffer's end. -/
def encrypt_buffer_spec (t : tea) (buf : List Nat) : List Nat :=
  if buf.length < 8 then buf
  else if buf.length % 8 = 0 then mapBlocks (encrypt_chunk_bytes t) buf
  else onFinalBlock (encrypt_chunk_bytes t) (mapBlocks (encrypt_chunk_bytes t) buf)

/-- The whole-buffer decrypt policy in the spec's words: no-op under 8 bytes;
iff a remainder exists first decrypt the final full block ending at the
buffer's end; then decrypt all complete blocks front-to-back over the buffer
truncated to the last whole-block boundary, the remainder bytes beyond it
staying as they are. -/
def decrypt_buffer_spec (t : tea) (buf : List Nat) : List Nat :=
  if buf.length < 8 then buf
  else
    let x :=
      if buf.length % 8 = 0 then buf
      else onFinalBlock (decrypt_chunk_bytes t) buf
    mapBlocks (decrypt_chunk_bytes t) (x.take (buf.length - buf.length % 8))
      ++ x.drop (buf.length - buf.length % 8)

lemma exists_block (l : List Nat) (h : 8 ≤ l.length) :
    ∃ b0 b1 b2 b3 b4 b5 b6 b7 rest,
      l = b0 :: b1 :: b2 :: b3 :: b4 :: b5 :: b6 :: b7 :: rest := by
  rcases l with _ | ⟨b0, _ | ⟨b1, _ | ⟨b2, _ | ⟨b3, _ | ⟨b4, _ | ⟨b5,
    _ | ⟨b6, _ | ⟨b7, rest⟩⟩⟩⟩⟩⟩⟩⟩
  all_goals first
    | exact ⟨_, _, _, _, _, _, _, _, _, rfl⟩
    | (simp only [List.length_nil, List.length_cons] at h; omega)

lemma mapBlocks_step (f : List Nat → List Nat) (l : List Nat)
    (h : 8 ≤ l.length) :
    mapBlocks f l = f (l.take 8) ++ mapBlocks f (l.drop 8) := by
  obtain ⟨b0, b1, b2, b3, b4, b5, b6, b7, rest, rfl⟩ := exists_block l h
  rfl

lemma mapBlocks_short (f : List Nat → List Nat) (l : List Nat)
    (h : l.length < 8) :
    mapBlocks f l = l := by
  rcases l with _ | ⟨b0, _ | ⟨b1, _ | ⟨b2, _ | ⟨b3, _ | ⟨b4, _ | ⟨b5,
    _ | ⟨b6, _ | ⟨b7, rest⟩⟩⟩⟩⟩⟩⟩⟩
  all_goals first
    | rfl
    | (simp only [List.length_nil, List.length_cons] at h; omega)

lemma mapBlocks_append (f : List Nat → List Nat) :
    ∀ (n : Nat) (a b : List Nat), a.length = 8 * n →
      mapBlocks f (a ++ b) = mapBlocks f a ++ mapBlocks f b := by
  intro n
  induction n with
  | zero =>
    intro a b ha
    have : a = [] := List.length_eq_zero.mp (by omega)
    subst this
    simp [mapBlocks_short]
  | succ n ih =>
    intro a b ha
    have h8 : 8 ≤ a.length := by omega
    have h8' : 8 ≤ (a ++ b).length := by
      simp only [List.length_append]
      omega
    rw [mapBlocks_step f (a ++ b) h8', mapBlocks_step f a h8,
      List.take_append_of_le_length h8, List.drop_append_of_le_length h8,
      ih (a.drop 8) b (by simp only [List.length_drop]; omega),
      List.append_assoc]

lemma mapBlocks_length (f : List Nat → List Nat)
    (f8 : ∀ c : List Nat, c.length = 8 → (f c).length = 8) :
    ∀ (n : Nat) (l : List Nat), l.length ≤ n →
      (mapBlocks f l).length = l.length := by
  intro n
  induction n with
  | zero =>
    intro l hl
    have : l = [] := List.length_eq_zero.mp (by omega)
    subst this
    rfl
  | succ n ih =>
    intro l hl
    by_cases h8 : 8 ≤ l.length
    · rw [mapBlocks_step f l h8]
      have ht : (l.take 8).length = 8 := by
        simp only [List.length_take]
        omega
      have hd : (l.drop 8).length = l.length - 8 := List.length_drop 8 l
      rw [List.length_append, f8 _ ht, ih (l.drop 8) (by omega), hd]
      omega
    · rw [mapBlocks_short f l (by omega)]

lemma mapBlocks_lt256 (f : List Nat → List Nat)
    (f256 : ∀ c : List Nat, c.length = 8 → (∀ b ∈ c, b < 256) →
      ∀ b ∈ f c, b < 256) :
    ∀ (n : Nat) (l : List Nat), l.length ≤ n → (∀ b ∈ l, b < 256) →
      ∀ b ∈ mapBlocks f l, b < 256 := by
  intro n
  induction n with
  | zero =>
    intro l hl hb
    have : l = [] := List.length_eq_zero.mp (by omega)
    subst this
    simp [mapBlocks]
  | succ n ih =>
    intro l hl hb
    by_cases h8 : 8 ≤ l.length
    · rw [mapBlocks_step f l h8]
      intro b hbm
      rcases List.mem_append.mp hbm with h | h
      · refine f256 (l.take 8) ?_ ?_ b h
        · simp only [List.length_take]
          omega
        · intro c hc
          exact hb c (List.take_subset 8 l hc)
      · refine ih (l.drop 8) ?_ ?_ b h
        · simp only [List.length_drop]
          omega
        · intro c hc
          exact hb c (List.drop_subset 8 l hc)
    · rw [mapBlocks_short f l (by omega)]
      exact hb

lemma mapBlocks_invol (t : tea) :
    ∀ (n : Nat) (l : List Nat), l.length ≤ n → (∀ b ∈ l, b < 256) →
      mapBlocks (decrypt_chunk_bytes t) (mapBlocks (encrypt_chunk_bytes t) l)
        = l := by
  intro n
  induction n with
  | zero =>
    intro l hl hb
    have : l = [] := List.length_eq_zero.mp (by omega)
    subst this
    rfl
  | succ n ih =>
    intro l hl hb
    by_cases h8 : 8 ≤ l.length
    · have ht : (l.take 8).length = 8 := by
        simp only [List.length_take]
        omega
      have hEt : (encrypt_chunk_bytes t (l.take 8)).length = 8 :=
        encrypt_chunk_bytes_length t _ ht
      rw [mapBlocks_step (encrypt_chunk_bytes t) l h8,
        mapBlocks_step (decrypt_chunk_bytes t) _ (by
          simp only [List.length_append, hEt]
          omega),
        List.take_left' hEt, List.drop_left' hEt,
        decrypt_chunk_bytes_encrypt_chunk_bytes t _ ht (by
          intro c hc
          exact hb c (List.take_subset 8 l hc)),
        ih (l.drop 8) (by simp only [List.length_drop]; omega) (by
          intro c hc
          exact hb c (List.drop_subset 8 l hc)),
        List.take_append_drop]
    · rw [mapBlocks_short (encrypt_chunk_bytes t) l (by omega),
        mapBlocks_short (decrypt_chunk_bytes t) l (by omega)]

lemma readBytes_length (l : List Nat) (pos n : Nat) (h : pos + n ≤ l.length) :
    (readBytes l pos n).length = n := by
  simp only [readBytes, List.length_take, List.length_drop]
  omega

lemma opLoop_eq (f : List Nat → List Nat)
    (f8 : ∀ c : List Nat, c.length = 8 → (f c).length = 8) :
    ∀ (n pos : Nat) (l : List Nat), pos + 8 * n ≤ l.length →
      opLoop f n pos l
        = l.take pos ++ mapBlocks f (readBytes l pos (8 * n))
            ++ l.drop (pos + 8 * n) := by
  intro n
  induction n with
  | zero =>
    intro pos l h
    show l = _
    simp only [Nat.mul_zero, Nat.add_zero, readBytes, List.take_zero]
    rw [show mapBlocks f [] = [] from rfl, List.append_nil,
      List.take_append_drop]
  | succ n ih =>
    intro pos l h
    have hpos8 : pos + 8 ≤ l.length := by omega
    have hc : (readBytes l pos 8).length = 8 :=
      readBytes_length l pos 8 hpos8
    have hfc : (f (readBytes l pos 8)).length = 8 := f8 _ hc
    have hA : (l.take pos).length = pos := by
      simp only [List.length_take]
      omega
    have hAfc : (l.take pos ++ f (readBytes l pos 8)).length = pos + 8 := by
      simp only [List.length_append, hA, hfc]
    have hl' : opChunkAt f l pos
        = (l.take pos ++ f (readBytes l pos 8)) ++ l.drop (pos + 8) := by
      simp only [opChunkAt, writeBytes, hfc, List.append_assoc]
    have hl'len : (opChunkAt f l pos).length = l.length := by
      rw [hl']
      simp only [List.length_append, hA, hfc, List.length_drop]
      omega
    show opLoop f n (pos + 8) (opChunkAt f l pos) = _
    rw [ih (pos + 8) (opChunkAt f l pos) (by omega)]
    have htake : (opChunkAt f l pos).take (pos + 8)
        = l.take pos ++ f (readBytes l pos 8) := by
      rw [hl', List.take_left' hAfc]
    have hdrop : (opChunkAt f l pos).drop (pos + 8) = l.drop (pos + 8) := by
      rw [hl', List.drop_left' hAfc]
    have hread : readBytes (opChunkAt f l pos) (pos + 8) (8 * n)
        = readBytes l (pos + 8) (8 * n) := by
      simp only [readBytes, hdrop]
    have hdrop2 : (opChunkAt f l pos).drop (pos + 8 + 8 * n)
        = l.drop (pos + 8 + 8 * n) := by
      rw [← List.drop_drop (8 * n) (pos + 8) (opChunkAt f l pos), hdrop,
        List.drop_drop]
    rw [htake, hread, hdrop2]
    have hsplit : readBytes l pos (8 * (n + 1))
        = readBytes l pos 8 ++ readBytes l (pos + 8) (8 * n) := by
      simp only [readBytes]
      rw [show 8 * (n + 1) = 8 + 8 * n by ring, List.take_add,
        List.drop_drop]
    have hmap : mapBlocks f (readBytes l pos 8 ++ readBytes l (pos + 8) (8 * n))
        = f (readBytes l pos 8)
          ++ mapBlocks f (readBytes l (pos + 8) (8 * n)) := by
      rw [mapBlocks_step f _ (by rw [List.length_append, hc]; omega),
        List.take_left' hc, List.drop_left' hc]
    rw [hsplit, hmap, show pos + 8 * (n + 1) = pos + 8 + 8 * n by ring]
    simp only [List.append_assoc]

lemma opChunkAt_final (f : List Nat → List Nat)
    (f8 : ∀ c : List Nat, c.length = 8 → (f c).length = 8)
    (l : List Nat) (h8 : 8 ≤ l.length) :
    opChunkAt f l (l.length - 8) = onFinalBlock f l := by
  have hd : (l.drop (l.length - 8)).length = 8 := by
    simp only [List.length_drop]
    omega
  have hr : readBytes l (l.length - 8) 8 = l.drop (l.length - 8) := by
    simp only [readBytes]
    exact List.take_of_length_le (by omega)
  simp only [opChunkAt, writeBytes, hr, f8 _ hd, onFinalBlock]
  rw [List.drop_of_length_le (show l.length ≤ l.length - 8 + 8 by omega),
    List.append_nil]

lemma onFinalBlock_length (f : List Nat → List Nat)
    (f8 : ∀ c : List Nat, c.length = 8 → (f c).length = 8)
    (l : List Nat) (h8 : 8 ≤ l.length) :
    (onFinalBlock f l).length = l.length := by
  have hd : (l.drop (l.length - 8)).length = 8 := by
    simp only [List.length_drop]
    omega
  simp only [onFinalBlock, List.length_append, List.length_take, f8 _ hd]
  omega

lemma opLoop_zeroPos (f : List Nat → List Nat)
    (f8 : ∀ c : List Nat, c.length = 8 → (f c).length = 8)
    (n : Nat) (l : List Nat) (h : 8 * n ≤ l.length) :
    opLoop f n 0 l = mapBlocks f (l.take (8 * n)) ++ l.drop (8 * n) := by
  have := opLoop_eq f f8 n 0 l (by omega)
  simpa only [List.take_zero, List.nil_append, Nat.zero_add, readBytes,
    List.drop_zero] using this

lemma mapBlocks_split (f : List Nat → List Nat) (l : List Nat) :
    mapBlocks f l
      = mapBlocks f (l.take (8 * (l.length / 8)))
          ++ l.drop (8 * (l.length / 8)) := by
  conv_lhs => rw [← List.take_append_drop (8 * (l.length / 8)) l]
  rw [mapBlocks_append f (l.length / 8) _ _ (by
    simp only [List.length_take]
    omega)]
  rw [mapBlocks_short f (l.drop (8 * (l.length / 8))) (by
    simp only [List.length_drop]
    omega)]

theorem encrypt_buffer_eq_spec (t : tea) (buf : List Nat) :
    encrypt_buffer t buf = encrypt_buffer_spec t buf := by
  by_cases hlt : buf.length < 8
  · simp only [encrypt_buffer, encrypt_buffer_spec, if_pos hlt]
  · have h8 : 8 ≤ buf.length := by omega
    have hloop := opLoop_zeroPos (encrypt_chunk_bytes t)
      (encrypt_chunk_bytes_length t) (buf.length / 8) buf (by omega)
    by_cases hm : buf.length % 8 = 0
    · have hk : 8 * (buf.length / 8) = buf.length := by omega
      rw [hk, List.take_of_length_le (le_refl _),
        List.drop_of_length_le (le_refl _), List.append_nil] at hloop
      simp only [encrypt_buffer, encrypt_buffer_spec, if_neg hlt, hm, ne_eq,
        not_true_eq_false, if_false, if_pos, ite_false, ite_true]
      exact hloop
    · have hl2len : (opLoop (encrypt_chunk_bytes t) (buf.length / 8) 0
          buf).length = buf.length := by
        rw [hloop, List.length_append,
          mapBlocks_length (encrypt_chunk_bytes t)
            (encrypt_chunk_bytes_length t)
            (buf.take (8 * (buf.length / 8))).length _ (le_refl _),
          List.length_take, List.length_drop]
        omega
      have hsplit := mapBlocks_split (encrypt_chunk_bytes t) buf
      simp only [encrypt_buffer, encrypt_buffer_spec, if_neg hlt, hm, ne_eq,
        not_false_eq_true, if_true, ite_true, if_neg, ite_false]
      rw [show buf.length - 8 = (opLoop (encrypt_chunk_bytes t)
          (buf.length / 8) 0 buf).length - 8 by rw [hl2len]]
      rw [opChunkAt_final (encrypt_chunk_bytes t)
        (encrypt_chunk_bytes_length t) _ (by rw [hl2len]; omega)]
      rw [hloop, ← hsplit]

theorem decrypt_buffer_eq_spec (t : tea) (buf : List Nat) :
    decrypt_buffer t buf = decrypt_buffer_spec t buf := by
  by_cases hlt : buf.length < 8
  · simp only [decrypt_buffer, decrypt_buffer_spec, if_pos hlt]
  · have h8 : 8 ≤ buf.length := by omega
    by_cases hm : buf.length % 8 = 0
    · have hk : 8 * (buf.length / 8) = buf.length := by omega
      have hloop := opLoop_zeroPos (decrypt_chunk_bytes t)
        (decrypt_chunk_bytes_length t) (buf.length / 8) buf (by omega)
      simp only [decrypt_buffer, decrypt_buffer_spec, if_neg hlt, hm, ne_eq,
        not_true_eq_false, if_false, ite_false, ite_true, Nat.sub_zero]
      rw [hloop, hk, List.take_of_length_le (le_refl _)]
    · have hl2 := opChunkAt_final (decrypt_chunk_bytes t)
        (decrypt_chunk_bytes_length t) buf h8
      have hl2len : (onFinalBlock (decrypt_chunk_bytes t) buf).length
          = buf.length :=
        onFinalBlock_length (decrypt_chunk_bytes t)
          (decrypt_chunk_bytes_length t) buf h8
      have hloop := opLoop_zeroPos (decrypt_chunk_bytes t)
        (decrypt_chunk_bytes_length t) (buf.length / 8)
        (onFinalBlock (decrypt_chunk_bytes t) buf) (by rw [hl2len]; omega)
      simp only [decrypt_buffer, decrypt_buffer_spec, if_neg hlt, hm, ne_eq,
        not_false_eq_true, if_true, ite_true, if_neg, ite_false]
      rw [hl2, hloop, show buf.length - buf.length % 8
          = 8 * (buf.length / 8) by omega]

theorem decrypt_buffer_spec_encrypt_buffer_spec (t : tea) (l : List Nat)
    (hb : ∀ b ∈ l, b < 256) :
    decrypt_buffer_spec t (encrypt_buffer_spec t l) = l := by
  by_cases hlt : l.length < 8
  · simp only [encrypt_buffer_spec, decrypt_buffer_spec, if_pos hlt]
  · have h8 : 8 ≤ l.length := by omega
    by_cases hm : l.length % 8 = 0
    · have henc : encrypt_buffer_spec t l
          = mapBlocks (encrypt_chunk_bytes t) l := by
        simp only [encrypt_buffer_spec, if_neg hlt, if_pos hm]
      have hlen : (mapBlocks (encrypt_chunk_bytes t) l).length = l.length :=
        mapBlocks_length (encrypt_chunk_bytes t)
          (encrypt_chunk_bytes_length t) l.length l (le_refl _)
      rw [henc]
      simp only [decrypt_buffer_spec, hlen, if_neg hlt, hm, Nat.sub_zero,
        ite_true, if_pos]
      rw [List.take_of_length_le (le_of_eq hlen),
        List.drop_of_length_le (le_of_eq hlen), List.append_nil]
      exact mapBlocks_invol t l.length l (le_refl _) hb
    · have hr : l.length % 8 < 8 := Nat.mod_lt _ (by omega)
      have hk : 8 * (l.length / 8) = l.length - l.length % 8 := by omega
      have hkle : 8 * (l.length / 8) ≤ l.length := by omega
      have htb : ∀ b ∈ l.take (8 * (l.length / 8)), b < 256 := by
        intro b hbm
        exact hb b (List.take_subset _ l hbm)
      have hAlen : (mapBlocks (encrypt_chunk_bytes t)
          (l.take (8 * (l.length / 8)))).length = 8 * (l.length / 8) := by
        rw [mapBlocks_length (encrypt_chunk_bytes t)
          (encrypt_chunk_bytes_length t)
          (l.take (8 * (l.length / 8))).length _ (le_refl _)]
        simp only [List.length_take]
        omega
      have hAb : ∀ b ∈ mapBlocks (encrypt_chunk_bytes t)
          (l.take (8 * (l.length / 8))), b < 256 :=
        mapBlocks_lt256 (encrypt_chunk_bytes t)
          (fun c hc hcb => encrypt_chunk_bytes_lt t c hc)
          (l.take (8 * (l.length / 8))).length _ (le_refl _) htb
      have hsplit := mapBlocks_split (encrypt_chunk_bytes t) l
      have hmfront : (mapBlocks (encrypt_chunk_bytes t) l).length
          = l.length := by
        rw [hsplit, List.length_append, hAlen, List.length_drop]
        omega
      have hm8 : l.length - 8 ≤ 8 * (l.length / 8) := by omega
      have henc : encrypt_buffer_spec t l
          = onFinalBlock (encrypt_chunk_bytes t)
              (mapBlocks (encrypt_chunk_bytes t) l) := by
        simp only [encrypt_buffer_spec, if_neg hlt, if_neg hm]
      have htakem : (mapBlocks (encrypt_chunk_bytes t) l).take (l.length - 8)
          = (mapBlocks (encrypt_chunk_bytes t)
              (l.take (8 * (l.length / 8)))).take (l.length - 8) := by
        rw [hsplit, List.take_append_of_le_length (by rw [hAlen]; omega)]
      have hdropm : (mapBlocks (encrypt_chunk_bytes t) l).drop (l.length - 8)
          = (mapBlocks (encrypt_chunk_bytes t)
              (l.take (8 * (l.length / 8)))).drop (l.length - 8)
            ++ l.drop (8 * (l.length / 8)) := by
        rw [hsplit, List.drop_append_of_le_length (by rw [hAlen]; omega)]
      have hzlen : ((mapBlocks (encrypt_chunk_bytes t)
          (l.take (8 * (l.length / 8)))).drop (l.length - 8)
            ++ l.drop (8 * (l.length / 8))).length = 8 := by
        simp only [List.length_append, List.length_drop, hAlen]
        omega
      have hzb : ∀ b ∈ (mapBlocks (encrypt_chunk_bytes t)
          (l.take (8 * (l.length / 8)))).drop (l.length - 8)
            ++ l.drop (8 * (l.length / 8)), b < 256 := by
        intro b hbm
        rcases List.mem_append.mp hbm with h | h
        · exact hAb b (List.drop_subset _ _ h)
        · exact hb b (List.drop_subset _ l h)
      have henc2 : encrypt_buffer_spec t l
          = (mapBlocks (encrypt_chunk_bytes t)
              (l.take (8 * (l.length / 8)))).take (l.length - 8)
            ++ encrypt_chunk_bytes t
              ((mapBlocks (encrypt_chunk_bytes t)
                (l.take (8 * (l.length / 8)))).drop (l.length - 8)
               ++ l.drop (8 * (l.length / 8))) := by
        rw [henc, onFinalBlock, hmfront, htakem, hdropm]
      have htakelen : ((mapBlocks (encrypt_chunk_bytes t)
          (l.take (8 * (l.length / 8)))).take (l.length - 8)).length
          = l.length - 8 := by
        simp only [List.length_take, hAlen]
        omega
      have henclen : (encrypt_buffer_spec t l).length = l.length := by
        rw [henc2, List.length_append, htakelen,
          encrypt_chunk_bytes_length t _ hzlen]
        omega
      have hencm : (encrypt_buffer_spec t l).length % 8 ≠ 0 := by
        rw [henclen]
        exact hm
      -- unfold the decrypt side
      have hx : onFinalBlock (decrypt_chunk_bytes t) (encrypt_buffer_spec t l)
          = mapBlocks (encrypt_chunk_bytes t) l := by
        rw [onFinalBlock, henclen]
        rw [show (encrypt_buffer_spec t l).take (l.length - 8)
            = (mapBlocks (encrypt_chunk_bytes t)
                (l.take (8 * (l.length / 8)))).take (l.length - 8) by
          rw [henc2, List.take_left' htakelen]]
        rw [show (encrypt_buffer_spec t l).drop (l.length - 8)
            = encrypt_chunk_bytes t
              ((mapBlocks (encrypt_chunk_bytes t)
                (l.take (8 * (l.length / 8)))).drop (l.length - 8)
               ++ l.drop (8 * (l.length / 8))) by
          rw [henc2, List.drop_left' htakelen]]
        rw [decrypt_chunk_bytes_encrypt_chunk_bytes t _ hzlen hzb]
        rw [← List.append_assoc, List.take_append_drop, ← hsplit]
      simp only [decrypt_buffer_spec, henclen, hx]
      simp only [if_neg hlt, if_neg hm]
      rw [show l.length - l.length % 8 = 8 * (l.length / 8) by omega]
      rw [show (mapBlocks (encrypt_chunk_bytes t) l).take (8 * (l.length / 8))
          = mapBlocks (encrypt_chunk_bytes t)
              (l.take (8 * (l.length / 8))) by
        rw [hsplit, List.take_left' hAlen]]
      rw [show (mapBlocks (encrypt_chunk_bytes t) l).drop (8 * (l.length / 8))
          = l.drop (8 * (l.length / 8)) by
        rw [hsplit, List.drop_left' hAlen]]
      rw [mapBlocks_invol t (l.take (8 * (l.length / 8))).length _
        (le_refl _) htb]
      exact List.take_append_drop _ l

/-- The cipher involution on whole buffers: for byte-valued buffers of any
length, decrypting an encrypted buffer restores it exactly. -/
theorem decrypt_buffer_encrypt_buffer (t : tea) (l : List Nat)
    (hb : ∀ b ∈ l, b < 256) :
    decrypt_buffer t (encrypt_buffer t l) = l := by
  rw [encrypt_buffer_eq_spec, decrypt_buffer_eq_spec]
  exact decrypt_buffer_spec_encrypt_buffer_spec t l hb

lemma encrypt_buffer_short (t : tea) (buf : List Nat)
    (h : buf.length < 8) : encrypt_buffer t buf = buf := by
  simp only [encrypt_buffer, if_pos h]

lemma decrypt_buffer_short (t : tea) (buf : List Nat)
    (h : buf.length < 8) : decrypt_buffer t buf = buf := by
  simp only [decrypt_buffer, if_pos h]

lemma encrypt_buffer_length (t : tea) (buf : List Nat) :
    (encrypt_buffer t buf).length = buf.length := by
  rw [encrypt_buffer_eq_spec]
  by_cases hlt : buf.length < 8
  · simp only [encrypt_buffer_spec, if_pos hlt]
  · have h8 : 8 ≤ buf.length := by omega
    have hfront : (mapBlocks (encrypt_chunk_bytes t) buf).length
        = buf.length :=
      mapBlocks_length (encrypt_chunk_bytes t) (encrypt_chunk_bytes_length t)
        buf.length buf (le_refl _)
    by_cases hm : buf.length % 8 = 0
    · simp only [encrypt_buffer_spec, if_neg hlt, if_pos hm]
      exact hfront
    · simp only [encrypt_buffer_spec, if_neg hlt, if_neg hm]
      rw [onFinalBlock_length (encrypt_chunk_bytes t)
        (encrypt_chunk_bytes_length t) _ (by rw [hfront]; omega), hfront]

/-!
## The chunk enumerator

`archive_enumerator` (`archive.cpp` lines 214-268) is a shrinking view over
the unconsumed remainder of the chunk region; its state is that remaining
byte range. -/

namespace archive_enumerator

/-- `archive_enumerator::is_at_end`: the remaining view is empty. -/
def is_at_end (r : List Nat) : Bool := r.isEmpty

/-- `archive_enumerator::has_error` (`archive.cpp` lines 248-263). -/
def has_error (r : List Nat) : Bool :=
  if r.isEmpty then false
  else if r.length < 4 then true
  else if r.length < deserialize32 r + 4 then true
  else false

/-- `archive_enumerator::finished`: `is_at_end() || has_error()`. -/
def finished (r : List Nat) : Bool := is_at_end r || has_error r

/-- `archive_enumerator::advance`: no-op when finished, otherwise skip the
4-byte length field plus the declared payload. -/
def advance (r : List Nat) : List Nat :=
  if finished r then r else r.drop (deserialize32 r + 4)

/-- `archive_enumerator::data`: the payload range of the chunk at the cursor,
or an empty range when finished. -/
def data (r : List Nat) : List Nat :=
  if finished r then [] else (r.drop 4).take (deserialize32 r)

lemma finished_nil : finished [] = true := rfl

lemma length_advance_lt (r : List Nat) (h : finished r = false) :
    (advance r).length < r.length := by
  have hne : r ≠ [] := by
    intro he
    rw [he, finished_nil] at h
    cases h
  have hpos : 0 < r.length := List.length_pos.mpr hne
  rw [advance, if_neg (by rw [h]; exact Bool.false_ne_true)]
  simp only [List.length_drop]
  omega

/-- The validation loop of `read_from_file` (`archive.cpp` lines 117-127):
`long member = 0; for (; e; e.advance()) ++member;`, returning the final
counter and the final enumerator state.  The fuel argument dominates the
number of iterations (each step consumes at least 4 bytes). -/
def loopFuel : Nat → Nat → List Nat → Nat × List Nat
  | 0, member, r => (member, r)
  | fuel + 1, member, r =>
    if finished r then (member, r) else loopFuel fuel (member + 1) (advance r)

/-- Run the validation loop to completion over a chunk region. -/
def validate (r : List Nat) : Nat × List Nat := loopFuel r.length 0 r

lemma loopFuel_congr :
    ∀ (fuel fuel' member : Nat) (r : List Nat),
      r.length ≤ fuel → r.length ≤ fuel' →
      loopFuel fuel member r = loopFuel fuel' member r := by
  intro fuel
  induction fuel with
  | zero =>
    intro fuel' member r h h'
    have : r = [] := List.length_eq_zero.mp (by omega)
    subst this
    cases fuel' with
    | zero => rfl
    | succ m => simp [loopFuel, finished_nil]
  | succ fuel ih =>
    intro fuel' member r h h'
    cases fuel' with
    | zero =>
      have : r = [] := List.length_eq_zero.mp (by omega)
      subst this
      simp [loopFuel, finished_nil]
    | succ m =>
      show (if finished r then (member, r)
        else loopFuel fuel (member + 1) (advance r)) = _
      by_cases hf : finished r = true
      · simp only [loopFuel, if_pos hf]
      · have hff : finished r = false := by
          cases hfr : finished r
          · rfl
          · exact absurd hfr hf
        have hlt := length_advance_lt r hff
        simp only [loopFuel, if_neg hf]
        exact ih m (member + 1) (advance r) (by omega) (by omega)

lemma loopFuel_shift :
    ∀ (fuel member : Nat) (r : List Nat),
      loopFuel fuel member r
        = ((loopFuel fuel 0 r).1 + member, (loopFuel fuel 0 r).2) := by
  intro fuel
  induction fuel with
  | zero => intro member r; simp [loopFuel]
  | succ fuel ih =>
    intro member r
    by_cases hf : finished r = true
    · simp only [loopFuel, if_pos hf]
      simp
    · simp only [loopFuel, if_neg hf]
      rw [ih (member + 1) (advance r), ih 1 (advance r)]
      simp only [Prod.mk.injEq]
      exact ⟨by omega, trivial⟩

lemma loopFuel_succ (fuel member : Nat) (r : List Nat) :
    loopFuel (fuel + 1) member r
      = if finished r then (member, r)
        else loopFuel fuel (member + 1) (advance r) := rfl

lemma validate_finished (r : List Nat) (h : finished r = true) :
    validate r = (0, r) := by
  rw [validate]
  cases hl : r.length with
  | zero => rfl
  | succ n => simp only [loopFuel, if_pos h]

lemma validate_not_finished (r : List Nat) (h : finished r = false) :
    validate r
      = ((validate (advance r)).1 + 1, (validate (advance r)).2) := by
  have hne : r ≠ [] := by
    intro he
    rw [he, finished_nil] at h
    cases h
  have hpos : 0 < r.length := List.length_pos.mpr hne
  have hlt := length_advance_lt r h
  obtain ⟨n, hl⟩ : ∃ n, r.length = n + 1 := ⟨r.length - 1, by omega⟩
  rw [validate, hl, loopFuel_succ, h, if_neg Bool.false_ne_true,
    loopFuel_shift n 1 (advance r),
    loopFuel_congr n (advance r).length 0 (advance r) (by omega)
      (le_refl _)]
  rfl

/-- The member payloads produced by enumerating a chunk region to the end
(the `for (auto e = enumerate(); e; e.advance()) f(e.data());` pattern). -/
def toListFuel : Nat → List Nat → List (List Nat)
  | 0, _ => []
  | fuel + 1, r =>
    if finished r then [] else data r :: toListFuel fuel (advance r)

/-- Enumerate all member payloads of a chunk region, in order. -/
def toList (r : List Nat) : List (List Nat) := toListFuel r.length r

lemma toListFuel_congr :
    ∀ (fuel fuel' : Nat) (r : List Nat),
      r.length ≤ fuel → r.length ≤ fuel' →
      toListFuel fuel r = toListFuel fuel' r := by
  intro fuel
  induction fuel with
  | zero =>
    intro fuel' r h h'
    have : r = [] := List.length_eq_zero.mp (by omega)
    subst this
    cases fuel' with
    | zero => rfl
    | succ m => simp [toListFuel, finished_nil]
  | succ fuel ih =>
    intro fuel' r h h'
    cases fuel' with
    | zero =>
      have : r = [] := List.length_eq_zero.mp (by omega)
      subst this
      simp [toListFuel, finished_nil]
    | succ m =>
      by_cases hf : finished r = true
      · simp only [toListFuel, if_pos hf]
      · have hff : finished r = false := by
          cases hfr : finished r
          · rfl
          · exact absurd hfr hf
        have hlt := length_advance_lt r hff
        simp only [toListFuel, if_neg hf]
        rw [ih m (advance r) (by omega) (by omega)]

lemma toList_finished (r : List Nat) (h : finished r = true) :
    toList r = [] := by
  rw [toList]
  cases hl : r.length with
  | zero => rfl
  | succ n => simp only [toListFuel, if_pos h]

lemma toListFuel_succ (fuel : Nat) (r : List Nat) :
    toListFuel (fuel + 1) r
      = if finished r then [] else data r :: toListFuel fuel (advance r) :=
  rfl

lemma toList_not_finished (r : List Nat) (h : finished r = false) :
    toList r = data r :: toList (advance r) := by
  have hne : r ≠ [] := by
    intro he
    rw [he, finished_nil] at h
    cases h
  have hpos : 0 < r.length := List.length_pos.mpr hne
  have hlt := length_advance_lt r h
  obtain ⟨n, hl⟩ : ∃ n, r.length = n + 1 := ⟨r.length - 1, by omega⟩
  rw [toList, hl, toListFuel_succ, h, if_neg Bool.false_ne_true,
    toListFuel_congr n (advance r).length (advance r) (by omega)
      (le_refl _)]
  rfl

end archive_enumerator

/-- The ASCII code of the lowercase hexadecimal digit for `n < 16`. -/
def hexChar (n : Nat) : Nat := if n < 10 then 48 + n else 97 + (n - 10)

/-- An accumulator over the buffer, reduced modulo `16 ^ 32`. -/
def digestState (buf : List Nat) : Nat :=
  buf.foldl
    (fun a b => (a * 131 + b + 1)
      % 340282366920938463463374607431768211456)
    buf.length

/-- Modelled from the spec: `compute_md5_digest` wraps the MD5 primitive,
which the spec treats as an external collaborator ("computes a fixed-length
lowercase-hex digest string for an arbitrary byte range", deterministic and
pure).  Only its interface matters to the codec, so it is modelled as a
fixed deterministic function producing 32 lowercase-hex ASCII characters. -/
def compute_md5_digest (buf : List Nat) : List Nat :=
  (List.range 32).map (fun i => hexChar (digestState buf / 16 ^ (31 - i) % 16))

lemma compute_md5_digest_length (buf : List Nat) :
    (compute_md5_digest buf).length = 32 := by
  simp [compute_md5_digest]

lemma hexChar_lt (n : Nat) (h : n < 16) : hexChar n < 256 := by
  rw [hexChar]
  split <;> omega

lemma compute_md5_digest_lt (buf : List Nat) :
    ∀ b ∈ compute_md5_digest buf, b < 256 := by
  intro b hb
  simp only [compute_md5_digest, List.mem_map] at hb
  obtain ⟨i, _, rfl⟩ := hb
  exact hexChar_lt _ (Nat.mod_lt _ (by omega))

/-- `archive::read_error` (`archive.hpp`). -/
inductive read_error : Type where
  | success : read_error
  | could_not_open_file : read_error
  | archive_data_is_corrupt : read_error
  deriving DecidableEq

/-- `archive::write_error` (`archive.hpp`). -/
inductive write_error : Type where
  | success : write_error
  | no_data_to_write : write_error
  | could_not_open_file : write_error
  deriving DecidableEq

/-- The codec state (`archive` class, `archive.hpp`): the owned buffer
`filebuf`, and the chunk-region view `data`, which in every reachable state
is the prefix of `filebuf` of length `dataLen` (a span into the buffer). -/
structure archive : Type where
  filebuf : List Nat
  dataLen : Nat
  deriving DecidableEq

/-- The chunk-region view held by the codec (the `data` span member). -/
def archive.data (a : archive) : List Nat := a.filebuf.take a.dataLen

/-- The default-constructed codec `archive{}`: null buffer, empty view. -/
def archive.empty : archive := { filebuf := [], dataLen := 0 }

/-- `read_file` (`archive.cpp` lines 26-63): `file` is `none` when the file
cannot be opened and `some l` when it holds the bytes `l`.  A file whose size
is zero produces an empty (falsy) `byte_buffer`, exactly as an unopenable
file does. -/
def read_file (file : Option (List Nat)) : Option (List Nat) :=
  match file with
  | none => none
  | some l => if l.length = 0 then none else some l

/-- `archive::read_from_file` (`archive.cpp` lines 81-133): read the file,
require at least 34 bytes, decrypt the whole buffer, check the trailing
33-byte digest string (32 hex characters plus NUL) against the digest of the
chunk region, run the chunk-validation loop, and only then commit the new
state.  Every failure path returns with the codec state untouched. -/
def archive.read_from_file (a : archive) (file : Option (List Nat)) :
    archive × read_error :=
  match read_file file with
  | none => (a, read_error.could_not_open_file)
  | some buf =>
    if buf.length < 34 then (a, read_error.archive_data_is_corrupt)
    else
      let decrypted := decrypt_buffer h1_tea buf
      let archive_data := decrypted.take (buf.length - 33)
      let archive_md5 := decrypted.drop (buf.length - 33)
      if archive_md5 ≠ compute_md5_digest archive_data ++ [0] then
        (a, read_error.archive_data_is_corrupt)
      else if archive_enumerator.has_error
          (archive_enumerator.validate archive_data).2 then
        (a, read_error.archive_data_is_corrupt)
      else
        ({ filebuf := decrypted, dataLen := buf.length - 33 },
          read_error.success)

/-- One serialized chunk: the member's length as a little-endian `uint32`
followed by its payload. -/
def chunkBytes (m : List Nat) : List Nat := serialize32 m.length ++ m

/-- The serialized chunk region of a member list, in input order. -/
def regionOf (members : List (List Nat)) : List Nat :=
  (members.map chunkBytes).flatten

/-- `archive::load_members_from` (`archive.cpp` lines 135-182): serialize
each member as a length header plus payload, append the 33-byte digest
trailer over everything before it, do not encrypt, and set the chunk-region
view to everything before the trailer. -/
def archive.load_members_from (members : List (List Nat)) : archive :=
  { filebuf := regionOf members
      ++ compute_md5_digest (regionOf members) ++ [0],
    dataLen := (regionOf members).length }

/-- `archive::flush_to_file` (`archive.cpp` lines 184-207): fail with
`no_data_to_write` when the chunk region holds fewer than 4 bytes; fail with
`could_not_open_file` when the sink cannot be opened (`canOpen` models
`fopen` succeeding); otherwise encrypt the whole held buffer, emit it, and
reset the codec to the empty state.  The emitted file bytes are returned as
the third component (`none` when nothing was written). -/
def archive.flush_to_file (a : archive) (canOpen : Bool) :
    archive × write_error × Option (List Nat) :=
  if a.data.length < 4 then (a, write_error.no_data_to_write, none)
  else if !canOpen then (a, write_error.could_not_open_file, none)
  else (archive.empty, write_error.success,
    some (encrypt_buffer h1_tea a.filebuf))

/-- `archive::enumerate` followed by a full traversal: the member payloads
of the held chunk region, in order. -/
def archive.enumerate (a : archive) : List (List Nat) :=
  archive_enumerator.toList a.data

/-- Read file bytes into a fresh codec and enumerate its members; `none`
when the read fails. -/
def readEnumerate (bytes : List Nat) : Option (List (List Nat)) :=
  match archive.empty.read_from_file (some bytes) with
  | (a, read_error.success) => some a.enumerate
  | _ => none

/-- The full pipeline of the round-trip property: assemble the members,
flush to file bytes (with a writable sink), read the bytes back into a fresh
codec, and enumerate.  `none` when any stage fails. -/
def roundTrip (members : List (List Nat)) : Option (List (List Nat)) :=
  match ((archive.load_members_from members).flush_to_file true).2.2 with
  | none => none
  | some bytes => readEnumerate bytes

lemma regionOf_nil : regionOf [] = [] := rfl

lemma regionOf_cons (m : List Nat) (ms : List (List Nat)) :
    regionOf (m :: ms) = serialize32 m.length ++ (m ++ regionOf ms) := by
  simp [regionOf, chunkBytes]

lemma regionOf_cons_length (m : List Nat) (ms : List (List Nat)) :
    (regionOf (m :: ms)).length = 4 + m.length + (regionOf ms).length := by
  rw [regionOf_cons]
  simp only [List.length_append, serialize32_length]
  omega

lemma enum_region_cons (m : List Nat) (ms : List (List Nat))
    (hm : m.length < M32) :
    archive_enumerator.finished (regionOf (m :: ms)) = false
      ∧ archive_enumerator.data (regionOf (m :: ms)) = m
      ∧ archive_enumerator.advance (regionOf (m :: ms)) = regionOf ms := by
  have hlen := regionOf_cons_length m ms
  have hne : regionOf (m :: ms) ≠ [] := by
    intro he
    rw [he] at hlen
    simp only [List.length_nil] at hlen
    omega
  have hie : (regionOf (m :: ms)).isEmpty = false :=
    List.isEmpty_eq_false.mpr hne
  have hd : deserialize32 (regionOf (m :: ms)) = m.length := by
    rw [regionOf_cons]
    exact deserialize32_serialize32 m.length _ hm
  have herr : archive_enumerator.has_error (regionOf (m :: ms)) = false := by
    rw [archive_enumerator.has_error, hie, if_neg (by simp), hd,
      if_neg (by omega), if_neg (by omega)]
  have hfin : archive_enumerator.finished (regionOf (m :: ms)) = false := by
    rw [archive_enumerator.finished, archive_enumerator.is_at_end, hie, herr]
    rfl
  refine ⟨hfin, ?_, ?_⟩
  · rw [archive_enumerator.data, if_neg (by rw [hfin]; exact
      Bool.false_ne_true), hd, regionOf_cons,
      List.drop_left' (serialize32_length m.length),
      List.take_left' rfl]
  · rw [archive_enumerator.advance, if_neg (by rw [hfin]; exact
      Bool.false_ne_true), hd, regionOf_cons, ← List.append_assoc,
      List.drop_left' (by
        simp only [List.length_append, serialize32_length]
        omega)]

lemma validate_regionOf (members : List (List Nat))
    (hm : ∀ m ∈ members, m.length < M32) :
    archive_enumerator.has_error
        (archive_enumerator.validate (regionOf members)).2 = false
      ∧ (archive_enumerator.validate (regionOf members)).1 = members.length
      ∧ archive_enumerator.toList (regionOf members) = members := by
  induction members with
  | nil =>
    rw [regionOf_nil,
      archive_enumerator.validate_finished [] archive_enumerator.finished_nil,
      archive_enumerator.toList_finished [] archive_enumerator.finished_nil]
    exact ⟨rfl, rfl, rfl⟩
  | cons m ms ih =>
    obtain ⟨hfin, hdata, hadv⟩ := enum_region_cons m ms
      (hm m (by simp))
    obtain ⟨iherr, ihcount, ihlist⟩ := ih (by
      intro x hx
      exact hm x (by simp [hx]))
    refine ⟨?_, ?_, ?_⟩
    · rw [archive_enumerator.validate_not_finished _ hfin, hadv]
      exact iherr
    · rw [archive_enumerator.validate_not_finished _ hfin, hadv, ihcount]
      simp
    · rw [archive_enumerator.toList_not_finished _ hfin, hadv, hdata,
        ihlist]

lemma regionOf_lt256 (members : List (List Nat))
    (hb : ∀ m ∈ members, ∀ b ∈ m, b < 256) :
    ∀ b ∈ regionOf members, b < 256 := by
  induction members with
  | nil => simp [regionOf_nil]
  | cons m ms ih =>
    rw [regionOf_cons]
    intro b hbm
    rcases List.mem_append.mp hbm with h | h
    · exact serialize32_lt m.length b h
    · rcases List.mem_append.mp h with h' | h'
      · exact hb m (by simp) b h'
      · exact ih (by
          intro x hx
          exact hb x (by simp [hx])) b h'

lemma load_members_filebuf (members : List (List Nat)) :
    (archive.load_members_from members).filebuf
      = regionOf members
        ++ (compute_md5_digest (regionOf members) ++ [0]) := by
  simp [archive.load_members_from]

lemma load_members_filebuf_length (members : List (List Nat)) :
    (archive.load_members_from members).filebuf.length
      = (regionOf members).length + 33 := by
  rw [load_members_filebuf]
  simp only [List.length_append, compute_md5_digest_length,
    List.length_cons, List.length_nil]

lemma load_members_data (members : List (List Nat)) :
    (archive.load_members_from members).data = regionOf members := by
  simp only [archive.data, archive.load_members_from, List.append_assoc]
  exact List.take_left' rfl

lemma roundTrip_eval (members : List (List Nat))
    (hne : members ≠ [])
    (hb : ∀ m ∈ members, ∀ b ∈ m, b < 256)
    (hm : ∀ m ∈ members, m.length < M32) :
    roundTrip members = some members := by
  obtain ⟨m0, ms0, hcons⟩ := List.exists_cons_of_ne_nil hne
  have hR4 : 4 ≤ (regionOf members).length := by
    rw [hcons, regionOf_cons_length]
    omega
  have hFlen : (archive.load_members_from members).filebuf.length
      = (regionOf members).length + 33 := load_members_filebuf_length members
  have hFb : ∀ b ∈ (archive.load_members_from members).filebuf, b < 256 := by
    rw [load_members_filebuf]
    intro b hbm
    rcases List.mem_append.mp hbm with h | h
    · exact regionOf_lt256 members hb b h
    · rcases List.mem_append.mp h with h' | h'
      · exact compute_md5_digest_lt _ b h'
      · simp only [List.mem_singleton] at h'
        omega
  have hflush : (archive.load_members_from members).flush_to_file true
      = (archive.empty, write_error.success,
         some (encrypt_buffer h1_tea
           (archive.load_members_from members).filebuf)) := by
    simp only [archive.flush_to_file, load_members_data]
    rw [if_neg (show ¬ (regionOf members).length < 4 by omega)]
    rfl
  have hdec : decrypt_buffer h1_tea (encrypt_buffer h1_tea
      (archive.load_members_from members).filebuf)
      = (archive.load_members_from members).filebuf :=
    decrypt_buffer_encrypt_buffer h1_tea _ hFb
  have henclen : (encrypt_buffer h1_tea
      (archive.load_members_from members).filebuf).length
      = (regionOf members).length + 33 := by
    rw [encrypt_buffer_length, hFlen]
  have hreadfile : read_file (some (encrypt_buffer h1_tea
      (archive.load_members_from members).filebuf))
      = some (encrypt_buffer h1_tea
          (archive.load_members_from members).filebuf) := by
    simp only [read_file]
    rw [if_neg (by rw [henclen]; omega)]
  have htake : (archive.load_members_from members).filebuf.take
      (regionOf members).length = regionOf members := by
    rw [load_members_filebuf]
    exact List.take_left' rfl
  have hdrop : (archive.load_members_from members).filebuf.drop
      (regionOf members).length
      = compute_md5_digest (regionOf members) ++ [0] := by
    rw [load_members_filebuf]
    exact List.drop_left' rfl
  obtain ⟨hverr, hvcount, hvlist⟩ := validate_regionOf members hm
  have hread : archive.empty.read_from_file (some (encrypt_buffer h1_tea
      (archive.load_members_from members).filebuf))
      = (⟨(archive.load_members_from members).filebuf,
          (regionOf members).length⟩, read_error.success) := by
    simp only [archive.read_from_file, hreadfile]
    rw [if_neg (show ¬ (encrypt_buffer h1_tea
      (archive.load_members_from members).filebuf).length < 34 by
        rw [henclen]; omega)]
    rw [hdec, henclen, Nat.add_sub_cancel, htake, hdrop]
    rw [if_neg (show ¬ (compute_md5_digest (regionOf members) ++ [0]
      ≠ compute_md5_digest (regionOf members) ++ [0]) by simp)]
    rw [hverr, if_neg Bool.false_ne_true]
  have h1 : roundTrip members
      = readEnumerate (encrypt_buffer h1_tea
          (archive.load_members_from members).filebuf) := by
    unfold roundTrip
    rw [hflush]
  have h2 : readEnumerate (encrypt_buffer h1_tea
      (archive.load_members_from members).filebuf)
      = some (archive.enumerate ⟨(archive.load_members_from members).filebuf,
          (regionOf members).length⟩) := by
    unfold readEnumerate
    rw [hread]
  have h3 : archive.enumerate ⟨(archive.load_members_from members).filebuf,
      (regionOf members).length⟩ = members := by
    rw [archive.enumerate, archive.data]
    show archive_enumerator.toList
      ((archive.load_members_from members).filebuf.take
        (regionOf members).length) = members
    rw [htake]
    exact hvlist
  rw [h1, h2, h3]

/-- The enumerator state after `n` calls to `advance`. -/
def iterAdvance : Nat → List Nat → List Nat
  | 0, r => r
  | n + 1, r => iterAdvance n (archive_enumerator.advance r)

lemma validate_first_error :
    ∀ (k : Nat) (r : List Nat),
      (∀ i, i < k → archive_enumerator.finished (iterAdvance i r) = false) →
      archive_enumerator.has_error (iterAdvance k r) = true →
      (archive_enumerator.validate r).1 = k
        ∧ (archive_enumerator.validate r).2 = iterAdvance k r := by
  intro k
  induction k with
  | zero =>
    intro r _ herr
    have hfin : archive_enumerator.finished r = true := by
      rw [archive_enumerator.finished]
      rw [show iterAdvance 0 r = r from rfl] at herr
      rw [herr, Bool.or_true]
    rw [archive_enumerator.validate_finished r hfin]
    exact ⟨rfl, rfl⟩
  | succ k ih =>
    intro r hval herr
    have h0 : archive_enumerator.finished r = false := hval 0 (by omega)
    rw [archive_enumerator.validate_not_finished r h0]
    obtain ⟨ihc, ihs⟩ := ih (archive_enumerator.advance r)
      (fun i hi => hval (i + 1) (by omega)) herr
    exact ⟨by rw [ihc], by rw [ihs]; rfl⟩

lemma read_corrupt_of_region_error (a : archive) (content : List Nat)
    (hlen : 34 ≤ content.length)
    (herr : archive_enumerator.has_error (archive_enumerator.validate
      ((decrypt_buffer h1_tea content).take (content.length - 33))).2
        = true) :
    (a.read_from_file (some content)).2
      = read_error.archive_data_is_corrupt := by
  have hrf : read_file (some content) = some content := by
    simp only [read_file]
    rw [if_neg (by omega)]
  simp only [archive.read_from_file, hrf]
  rw [if_neg (show ¬ content.length < 34 by omega)]
  by_cases htr : (decrypt_buffer h1_tea content).drop (content.length - 33)
      ≠ compute_md5_digest
        ((decrypt_buffer h1_tea content).take (content.length - 33)) ++ [0]
  · rw [if_pos htr]
  · rw [if_neg htr, if_pos herr]

/-!
## The claims
-/

/-- C1: for every non-empty ordered list of byte buffers (each buffer
possibly empty; bytes below 256 and lengths below `2 ^ 32`, the invariants
of the `byte_buffer`/`uint32` representation), loading the codec via
`load_members_from`, flushing via `flush_to_file` (which encrypts), reading
the resulting file bytes back via `read_from_file` on a fresh codec, and
enumerating yields exactly the original sequence of buffers, in order,
byte-for-byte. -/
theorem C1_round_trip (members : List (List Nat))
    (hne : members ≠ [])
    (hb : ∀ m ∈ members, ∀ b ∈ m, b < 256)
    (hm : ∀ m ∈ members, m.length < M32) :
    roundTrip members = some members :=
  roundTrip_eval members hne hb hm

/-- Witness for C1 at a concrete two-member list. -/
theorem C1_round_trip_witness :
    roundTrip [[7], []] = some [[7], []] :=
  C1_round_trip [[7], []] (by decide) (by decide) (by decide)

/-- C2: for every buffer of byte values, `decrypt_buffer` of
`encrypt_buffer` restores the buffer exactly, and for buffers shorter than
one 8-byte block both operations are defined no-ops. -/
theorem C2_cipher_involution (buf : List Nat) (hb : ∀ b ∈ buf, b < 256) :
    decrypt_buffer h1_tea (encrypt_buffer h1_tea buf) = buf
      ∧ (buf.length < 8 →
          encrypt_buffer h1_tea buf = buf ∧ decrypt_buffer h1_tea buf = buf) :=
  ⟨decrypt_buffer_encrypt_buffer h1_tea buf hb,
   fun h => ⟨encrypt_buffer_short h1_tea buf h,
     decrypt_buffer_short h1_tea buf h⟩⟩

/-- Witness for C2 at a 9-byte buffer (odd remainder) and a 3-byte buffer
(undersized no-op). -/
theorem C2_cipher_involution_witness :
    decrypt_buffer h1_tea (encrypt_buffer h1_tea [1, 2, 3, 4, 5, 6, 7, 8, 9])
        = [1, 2, 3, 4, 5, 6, 7, 8, 9]
      ∧ encrypt_buffer h1_tea [1, 2, 3] = [1, 2, 3] :=
  ⟨(C2_cipher_involution [1, 2, 3, 4, 5, 6, 7, 8, 9] (by decide)).1,
   ((C2_cipher_involution [1, 2, 3] (by decide)).2 (by decide)).1⟩

/-- C3: on buffers of at least one block, `encrypt_buffer` encrypts all
complete 8-byte blocks front-to-back and then, iff the length is not a
multiple of 8, re-encrypts the final 8 bytes ending at the buffer's end;
`decrypt_buffer` exactly inverts that ordering (tail block first iff a
remainder exists, then the complete blocks of the truncated buffer
front-to-back).  Stated as equality with the spec-side formulations
`encrypt_buffer_spec`/`decrypt_buffer_spec` of those policies. -/
theorem C3_partial_block_policy (buf : List Nat) (h8 : 8 ≤ buf.length) :
    encrypt_buffer h1_tea buf = encrypt_buffer_spec h1_tea buf
      ∧ decrypt_buffer h1_tea buf = decrypt_buffer_spec h1_tea buf :=
  ⟨encrypt_buffer_eq_spec h1_tea buf, decrypt_buffer_eq_spec h1_tea buf⟩

/-- Witness for C3 at a 12-byte buffer (one complete block plus a 4-byte
remainder). -/
theorem C3_partial_block_policy_witness :
    encrypt_buffer h1_tea [0, 1, 2, 3, 4, 5, 6, 7, 8, 9, 10, 11]
        = encrypt_buffer_spec h1_tea [0, 1, 2, 3, 4, 5, 6, 7, 8, 9, 10, 11]
      ∧ decrypt_buffer h1_tea [0, 1, 2, 3, 4, 5, 6, 7, 8, 9, 10, 11]
        = decrypt_buffer_spec h1_tea [0, 1, 2, 3, 4, 5, 6, 7, 8, 9, 10, 11] :=
  C3_partial_block_policy [0, 1, 2, 3, 4, 5, 6, 7, 8, 9, 10, 11] (by decide)

/-- C4: `has_error` is false on the empty view; on a non-empty view it is
true iff fewer than 4 bytes remain or the little-endian length at the cursor
plus 4 exceeds the view size; and `finished` is `is_at_end OR has_error`. -/
theorem C4_enumerator_flags (r : List Nat) :
    (r = [] → archive_enumerator.has_error r = false)
      ∧ (r ≠ [] →
          (archive_enumerator.has_error r = true
            ↔ r.length < 4 ∨ deserialize32 r + 4 > r.length))
      ∧ archive_enumerator.finished r
          = (archive_enumerator.is_at_end r || archive_enumerator.has_error r)
    := by
  refine ⟨?_, ?_, rfl⟩
  · rintro rfl
    rfl
  · intro hne
    rw [archive_enumerator.has_error, List.isEmpty_eq_false.mpr hne,
      if_neg Bool.false_ne_true]
    by_cases h4 : r.length < 4
    · rw [if_pos h4]
      exact iff_of_true rfl (Or.inl h4)
    · rw [if_neg h4]
      by_cases h5 : r.length < deserialize32 r + 4
      · rw [if_pos h5]
        exact iff_of_true rfl (Or.inr (by omega))
      · rw [if_neg h5]
        exact iff_of_false Bool.false_ne_true (by omega)

/-- Witness for C4: a 4-byte view whose declared length overruns. -/
theorem C4_enumerator_flags_witness :
    archive_enumerator.has_error [9, 0, 0, 0] = true :=
  ((C4_enumerator_flags [9, 0, 0, 0]).2.1 (by decide)).mpr (by decide)

/-- C5 (amended): when the k-th chunk (1-based) is the first structurally
corrupt one, the validation loop of `read_from_file` stops at that chunk
with `has_error` true, `read_from_file` fails with
`archive_data_is_corrupt`, and the member counter it reports for
diagnostics is `k - 1`, the number of chunks successfully validated before
the failure (the 0-based index of the failing chunk), not `k`. -/
theorem C5_first_corrupt_chunk (r : List Nat) (k : Nat) (hk : 1 ≤ k)
    (hval : ∀ i, i < k - 1 →
      archive_enumerator.finished (iterAdvance i r) = false)
    (herr : archive_enumerator.has_error (iterAdvance (k - 1) r) = true) :
    (archive_enumerator.validate r).1 = k - 1
      ∧ (archive_enumerator.validate r).2 = iterAdvance (k - 1) r
      ∧ archive_enumerator.has_error (archive_enumerator.validate r).2 = true
      ∧ ∀ (a : archive) (content : List Nat), 34 ≤ content.length →
          (decrypt_buffer h1_tea content).take (content.length - 33) = r →
          (a.read_from_file (some content)).2
            = read_error.archive_data_is_corrupt := by
  obtain ⟨hc, hs⟩ := validate_first_error (k - 1) r hval herr
  refine ⟨hc, hs, by rw [hs]; exact herr, ?_⟩
  intro a content hlen hregion
  exact read_corrupt_of_region_error a content hlen
    (by rw [hregion, hs]; exact herr)

/-- Witness for C5 at a region whose second chunk is the first corrupt one
(`k = 2`): one valid empty chunk, then a chunk claiming 7 bytes with only 1
remaining. -/
theorem C5_first_corrupt_chunk_witness :
    (archive_enumerator.validate [0, 0, 0, 0, 7, 0, 0, 0, 1]).1 = 1
      ∧ archive_enumerator.has_error
          (archive_enumerator.validate [0, 0, 0, 0, 7, 0, 0, 0, 1]).2
          = true :=
  ⟨(C5_first_corrupt_chunk [0, 0, 0, 0, 7, 0, 0, 0, 1] 2 (by decide)
      (by decide) (by decide)).1,
   (C5_first_corrupt_chunk [0, 0, 0, 0, 7, 0, 0, 0, 1] 2 (by decide)
      (by decide) (by decide)).2.2.1⟩

/-- Counterexample for C5 as stated: for a region whose first chunk
(`k = 1`) is corrupt, the loop's member counter — the value printed by
`read_from_file` for diagnostics — is `0`, not the 1-based index `1`. -/
theorem C5_first_corrupt_chunk_counterexample :
    archive_enumerator.has_error (iterAdvance 0 [7, 0, 0, 0, 1]) = true
      ∧ (archive_enumerator.validate [7, 0, 0, 0, 1]).1 = 0
      ∧ (archive_enumerator.validate [7, 0, 0, 0, 1]).1 ≠ 1 := by
  decide

/-- C6 (amended): a readable input of 33 or fewer bytes always fails
`read_from_file` with `archive_data_is_corrupt`, except that a zero-length
file is treated by `read_file` as an unreadable (falsy) buffer, so
`read_from_file` fails with `could_not_open_file` instead. -/
theorem C6_truncation (a : archive) (l : List Nat) (hlen : l.length ≤ 33) :
    (a.read_from_file (some l)).2
      = if l.length = 0 then read_error.could_not_open_file
        else read_error.archive_data_is_corrupt := by
  by_cases h0 : l.length = 0
  · have : l = [] := List.length_eq_zero.mp h0
    subst this
    rw [if_pos h0]
    rfl
  · have hrf : read_file (some l) = some l := by
      simp only [read_file]
      rw [if_neg h0]
    rw [if_neg h0]
    simp only [archive.read_from_file, hrf]
    rw [if_pos (by omega)]

/-- Witness for C6 at a 3-byte input. -/
theorem C6_truncation_witness :
    (archive.empty.read_from_file (some [1, 2, 3])).2
      = read_error.archive_data_is_corrupt :=
  (C6_truncation archive.empty [1, 2, 3] (by decide)).trans (by decide)

/-- Counterexample for C6 as stated: the zero-length buffer is within the
claim's range ("including length 0") but fails with `could_not_open_file`,
not `archive_data_is_corrupt`. -/
theorem C6_truncation_counterexample :
    (archive.empty.read_from_file (some [])).2
        = read_error.could_not_open_file
      ∧ read_error.could_not_open_file
        ≠ read_error.archive_data_is_corrupt := by
  decide

/-- C7: whenever `read_from_file` returns anything other than `success`,
the codec's held buffer and chunk-region view are exactly what they were
before the call. -/
theorem C7_read_failure_atomic (a : archive) (file : Option (List Nat))
    (h : (a.read_from_file file).2 ≠ read_error.success) :
    (a.read_from_file file).1 = a := by
  cases hf : read_file file with
  | none => simp [archive.read_from_file, hf]
  | some buf =>
    simp only [archive.read_from_file, hf] at h ⊢
    by_cases h34 : buf.length < 34
    · rw [if_pos h34]
    · rw [if_neg h34] at h ⊢
      by_cases htr : (decrypt_buffer h1_tea buf).drop (buf.length - 33)
          ≠ compute_md5_digest
            ((decrypt_buffer h1_tea buf).take (buf.length - 33)) ++ [0]
      · rw [if_pos htr]
      · rw [if_neg htr] at h ⊢
        by_cases hv : archive_enumerator.has_error
            (archive_enumerator.validate
              ((decrypt_buffer h1_tea buf).take (buf.length - 33))).2 = true
        · rw [if_pos hv]
        · rw [if_neg hv] at h
          exact absurd rfl h

/-- Witness for C7: an unopenable file leaves a loaded codec unchanged. -/
theorem C7_read_failure_atomic_witness :
    (archive.read_from_file ⟨[5, 5], 1⟩ none).2 ≠ read_error.success
      ∧ (archive.read_from_file ⟨[5, 5], 1⟩ none).1 = ⟨[5, 5], 1⟩ :=
  ⟨by decide, C7_read_failure_atomic ⟨[5, 5], 1⟩ none (by decide)⟩

/-- C8: `flush_to_file` fails with `no_data_to_write` iff the chunk region
holds fewer than 4 bytes (regardless of the sink), and a successful flush
resets the codec to the empty state. -/
theorem C8_flush_contract (a : archive) (canOpen : Bool) :
    ((a.flush_to_file canOpen).2.1 = write_error.no_data_to_write
        ↔ a.data.length < 4)
      ∧ ((a.flush_to_file canOpen).2.1 = write_error.success →
          (a.flush_to_file canOpen).1 = archive.empty) := by
  by_cases hd : a.data.length < 4
  · have he : a.flush_to_file canOpen
        = (a, write_error.no_data_to_write, none) := by
      simp only [archive.flush_to_file, if_pos hd]
    rw [he]
    exact ⟨iff_of_true rfl hd,
      fun habs => absurd habs (show write_error.no_data_to_write
        ≠ write_error.success by decide)⟩
  · cases canOpen
    · have he : a.flush_to_file false
          = (a, write_error.could_not_open_file, none) := by
        simp only [archive.flush_to_file, if_neg hd]
        rfl
      rw [he]
      exact ⟨iff_of_false (show ¬ write_error.could_not_open_file
          = write_error.no_data_to_write by decide) hd,
        fun habs => absurd habs (show write_error.could_not_open_file
          ≠ write_error.success by decide)⟩
    · have he : a.flush_to_file true
          = (archive.empty, write_error.success,
             some (encrypt_buffer h1_tea a.filebuf)) := by
        simp only [archive.flush_to_file, if_neg hd]
        rfl
      rw [he]
      exact ⟨iff_of_false (show ¬ write_error.success
          = write_error.no_data_to_write by decide) hd, fun _ => rfl⟩

/-- Witness for C8: a successful flush empties the codec; a codec with a
region under 4 bytes reports `no_data_to_write`. -/
theorem C8_flush_contract_witness :
    (archive.flush_to_file ⟨[1, 2, 3, 4, 5], 5⟩ true).1 = archive.empty
      ∧ (archive.flush_to_file ⟨[9], 1⟩ true).2.1
        = write_error.no_data_to_write :=
  ⟨(C8_flush_contract ⟨[1, 2, 3, 4, 5], 5⟩ true).2 (by decide),
   (C8_flush_contract ⟨[9], 1⟩ true).1.mpr (by decide)⟩

/-- C9: assembling the three members `[]`, `[1,2,3,4,5]`, `[9,9,9]`
produces a 20-byte chunk region inside a 53-byte unencrypted archive, and
writing then reading back yields exactly those three buffers in order via
enumeration. -/
theorem C9_concrete_scenario :
    (regionOf [[], [1, 2, 3, 4, 5], [9, 9, 9]]).length = 20
      ∧ (archive.load_members_from
          [[], [1, 2, 3, 4, 5], [9, 9, 9]]).filebuf.length = 53
      ∧ (archive.load_members_from
          [[], [1, 2, 3, 4, 5], [9, 9, 9]]).data.length = 20
      ∧ roundTrip [[], [1, 2, 3, 4, 5], [9, 9, 9]]
        = some [[], [1, 2, 3, 4, 5], [9, 9, 9]] := by
  decide

/-- C10: whenever `flush_to_file` fails (`no_data_to_write` or
`could_not_open_file`), the codec's state is completely unchanged — in
particular the held buffer has not been encrypted, since encryption only
happens after the sink opens — and nothing is written. -/
theorem C10_flush_failure_atomic (a : archive) (canOpen : Bool)
    (h : (a.flush_to_file canOpen).2.1 ≠ write_error.success) :
    (a.flush_to_file canOpen).1 = a
      ∧ (a.flush_to_file canOpen).2.2 = none := by
  by_cases hd : a.data.length < 4
  · have he : a.flush_to_file canOpen
        = (a, write_error.no_data_to_write, none) := by
      simp only [archive.flush_to_file, if_pos hd]
    rw [he]
    exact ⟨rfl, rfl⟩
  · cases canOpen
    · have he : a.flush_to_file false
          = (a, write_error.could_not_open_file, none) := by
        simp only [archive.flush_to_file, if_neg hd]
        rfl
      rw [he]
      exact ⟨rfl, rfl⟩
    · have he : a.flush_to_file true
          = (archive.empty, write_error.success,
             some (encrypt_buffer h1_tea a.filebuf)) := by
        simp only [archive.flush_to_file, if_neg hd]
        rfl
      rw [he] at h
      exact absurd rfl h

/-- Witness for C10: an unwritable sink leaves a loaded codec (and its
unencrypted buffer) untouched. -/
theorem C10_flush_failure_atomic_witness :
    (archive.flush_to_file ⟨[1, 2, 3, 4, 5], 5⟩ false).2.1
        ≠ write_error.success
      ∧ (archive.flush_to_file ⟨[1, 2, 3, 4, 5], 5⟩ false).1
        = ⟨[1, 2, 3, 4, 5], 5⟩
      ∧ (archive.flush_to_file ⟨[1, 2, 3, 4, 5], 5⟩ false).2.2 = none :=
  ⟨by decide,
   (C10_flush_failure_atomic ⟨[1, 2, 3, 4, 5], 5⟩ false (by decide)).1,
   (C10_flush_failure_atomic ⟨[1, 2, 3, 4, 5], 5⟩ false (by decide)).2⟩

end shader_packager
